import Mathlib

/-!
Verification development for the scikit-optimize example repository.

The repository's notebooks call `gp_minimize` from the scikit-optimize
library (the `skopt` package of this same repository, outside the example
directory).  The library's core — Dimension/Space transforms, acquisition
functions, and the ask/tell Optimizer with its constant-liar batch
strategy — is embedded below.  Components whose source is not in the
example notebooks are modelled from the specification, as marked in each
doc comment.  The notebook's `objective` function is embedded directly
from its source.
-/

namespace Skopt

/-! ## Dimensions and their normalizing transforms -/

/-- Modelled from the spec: sampling prior of a `Real` dimension
(`uniform` or `log-uniform`); the skopt `Dimension` classes are not in
the example sources. -/
inductive Prior where
  | uniform
  | loguniform
deriving DecidableEq

/-- Modelled from the spec: a `Dimension` is a variant over
Integer(low, high), Real(low, high, prior) and Categorical(values);
the skopt `space` module is not in the example sources.  Categorical
values are coded as naturals. -/
inductive Dim where
  | integer (low high : ℤ)
  | real (low high : ℝ) (prior : Prior)
  | categorical (cats : List ℕ)

/-- Modelled from the spec: construction invariant of a `Dimension`:
`low < high` for numeric kinds (positive lower bound for a log-uniform
prior), non-empty duplicate-free category sets. -/
def Dim.wellFormed : Dim → Prop
  | .integer low high => low < high
  | .real low high .uniform => low < high
  | .real low high .loguniform => 0 < low ∧ low < high
  | .categorical cats => cats ≠ [] ∧ cats.Nodup

/-- A native value carried by one coordinate of a parameter vector. -/
inductive Value where
  | intV (i : ℤ)
  | realV (r : ℝ)
  | catV (c : ℕ)

/-- Modelled from the spec: membership of a native value in a
Dimension's declared domain. -/
def Dim.valid : Dim → Value → Prop
  | .integer low high, .intV i => low ≤ i ∧ i ≤ high
  | .real low high _, .realV r => low ≤ r ∧ r ≤ high
  | .categorical cats, .catV c => c ∈ cats
  | _, _ => False

/-- Modelled from the spec: encode a native value into a normalized
numeric coordinate.  Numeric kinds are min-max scaled to `[0, 1]`; a
log-uniform Real applies `log` before the min-max scaling; a
Categorical uses ordinal encoding.  Returns `none` on a value of the
wrong kind. -/
noncomputable def Dim.transform : Dim → Value → Option ℝ
  | .integer low high, .intV i => some (((i : ℝ) - (low : ℝ)) / ((high : ℝ) - (low : ℝ)))
  | .real low high .uniform, .realV r => some ((r - low) / (high - low))
  | .real low high .loguniform, .realV r =>
      some ((Real.log r - Real.log low) / (Real.log high - Real.log low))
  | .categorical cats, .catV c => some ((cats.indexOf c : ℝ))
  | _, _ => none

/-- Modelled from the spec: decode a normalized coordinate back to a
native value; the inverse of `Dim.transform`.  A log-uniform Real
applies the corresponding exponential; an Integer rounds to the nearest
integer; a Categorical looks the rounded ordinal up in its value list. -/
noncomputable def Dim.inverse_transform : Dim → ℝ → Option Value
  | .integer low high, t => some (.intV (round ((low : ℝ) + t * ((high : ℝ) - (low : ℝ)))))
  | .real low high .uniform, t => some (.realV (low + t * (high - low)))
  | .real low high .loguniform, t =>
      some (.realV (Real.exp (Real.log low + t * (Real.log high - Real.log low))))
  | .categorical cats, t => (cats.get? (round t).toNat).map .catV

/-! ## The notebook's objective function -/

/-- Mean absolute error of one cross-validation fold, from the fold's
signed prediction errors (rationals model the ideal real arithmetic). -/
def foldMAE (errs : List ℚ) : ℚ := (errs.map (fun e => |e|)).sum / errs.length

/-- Modelled from the spec: sklearn's external
neg-mean-absolute-error scorer returns the negated mean absolute
error of a fold, so that larger scores are better. -/
def negMeanAbsoluteError (errs : List ℚ) : ℚ := -(foldMAE errs)

/-- The notebook's `objective`: negates the mean of the per-fold
`neg_mean_absolute_error` scores returned by `cross_val_score`
(`src/examples/hyperparameter-optimization.ipynb`, `objective`). -/
def objective (folds : List (List ℚ)) : ℚ :=
  -(((folds.map negMeanAbsoluteError).sum) / folds.length)

/-! ## The ask/tell Optimizer

The Optimizer operates on the normalized space `[0, 1]^dims`; a point is
a list of rational coordinates.  Rationals model the ideal real
arithmetic of the library's floating-point computations. -/

/-- A point of the normalized search space. -/
abbrev Pt := List ℚ

/-- Modelled from the spec: static configuration of an Optimizer
(dimension count of the Space, random-start count, LCB exploration
weight, size of the acquisition optimizer's random candidate pool). -/
structure Config where
  dims : ℕ
  nRandomStarts : ℕ
  kappa : ℚ
  nPool : ℕ
deriving DecidableEq

/-- Modelled from the spec: the lie used by the constant-liar batch
strategy — the minimum, maximum or mean of the observed `y` values. -/
inductive Strategy where
  | cl_min
  | cl_max
  | cl_mean
deriving DecidableEq

/-- Modelled from the spec: mutable state of an Optimizer — the told
observation history `Xi, yi`, the random-number-generator state, and
the batch cache keyed by (batch size, strategy). -/
structure OptState where
  cfg : Config
  Xi : List Pt
  yi : List ℚ
  rng : ℕ
  cache : Option ((ℕ × Strategy) × List Pt)
deriving DecidableEq

/-- Modelled from the spec: a deterministic pseudo-random-number
generator state step (linear congruential). -/
def rngNext (s : ℕ) : ℕ := (137 * s + 71) % 1000

/-- One pseudo-random coordinate in `[0, 1]` drawn from an rng state. -/
def coord (s : ℕ) : ℚ := ((s % 1000 : ℕ) : ℚ) / 999

/-- Draw `n` pseudo-random coordinates, threading the rng state. -/
def sampleCoords : ℕ → ℕ → List ℚ × ℕ
  | 0, s => ([], s)
  | n + 1, s =>
      let s' := rngNext s
      let rest := sampleCoords n s'
      (coord s' :: rest.1, rest.2)

/-- Modelled from the spec: `Space.sample` for one point — independent
random coordinates respecting each dimension's prior, here uniform on
the normalized cube. -/
def samplePoint (cfg : Config) (s : ℕ) : Pt × ℕ := sampleCoords cfg.dims s

/-- Draw a pool of `n` random candidate points. -/
def samplePool (cfg : Config) : ℕ → ℕ → List Pt × ℕ
  | 0, s => ([], s)
  | n + 1, s =>
      let p := samplePoint cfg s
      let rest := samplePool cfg n p.2
      (p.1 :: rest.1, rest.2)

/-- L1 distance between two normalized points. -/
def distL1 (u v : Pt) : ℚ := (List.zipWith (fun a b => |a - b|) u v).sum

/-- Strictly positive similarity weight of a training point for a
candidate. -/
def weight (c p : Pt) : ℚ := 1 / (1 + distL1 c p)

/-- Minimum of a non-empty list of rationals (the head as base). -/
def minY (l : List ℚ) : ℚ :=
  match l with
  | [] => 0
  | y :: ys => ys.foldl min y

/-- Maximum of a non-empty list of rationals (the head as base). -/
def maxY (l : List ℚ) : ℚ :=
  match l with
  | [] => 0
  | y :: ys => ys.foldl max y

/-- Modelled from the spec: posterior mean of the fitted surrogate at a
candidate — a similarity-weighted mean of the observed `y` values, a
function of the training set only. -/
def predictMean (Xi : List Pt) (yi : List ℚ) (c : Pt) : ℚ :=
  (List.zipWith (fun p y => weight c p * y) Xi yi).sum / (Xi.map (weight c)).sum

/-- Modelled from the spec: posterior standard deviation of the fitted
surrogate at a candidate — zero exactly at training inputs, here the
distance to the nearest training input (1 on an empty training set). -/
def predictStd (Xi : List Pt) (c : Pt) : ℚ :=
  match Xi.map (distL1 c) with
  | [] => 1
  | d :: ds => ds.foldl min d

/-- Modelled from the spec: the Lower Confidence Bound acquisition
score `mu - kappa * sigma` of a candidate under the fitted surrogate,
to be minimized by the acquisition optimizer. -/
def lcbScore (cfg : Config) (Xi : List Pt) (yi : List ℚ) (c : Pt) : ℚ :=
  predictMean Xi yi c - cfg.kappa * predictStd Xi c

/-- First element of a list attaining the minimum of `f`. -/
def argminBy (f : Pt → ℚ) : List Pt → Option Pt
  | [] => none
  | c :: cs =>
      match argminBy f cs with
      | none => some c
      | some b => if f c ≤ f b then some c else some b

/-- Modelled from the spec: a single `ask`.  Below the random-start
count it returns a pure random sample of the Space; once enough
observations exist it scores a random candidate pool under the fitted
surrogate's acquisition and returns the best candidate. -/
def ask1 (s : OptState) : Pt × OptState :=
  if s.yi.length < s.cfg.nRandomStarts then
    let p := samplePoint s.cfg s.rng
    (p.1, { s with rng := p.2 })
  else
    let pool := samplePool s.cfg s.cfg.nPool s.rng
    match argminBy (lcbScore s.cfg s.Xi s.yi) pool.1 with
    | some b => (b, { s with rng := pool.2 })
    | none => ((samplePoint s.cfg s.rng).1, { s with rng := pool.2 })

/-- Observed objective values as reported by the caller; `nan` models
the floating-point NaN. -/
inductive YVal where
  | nan
  | val (q : ℚ)
deriving DecidableEq

/-- Error raised by `tell`. -/
inductive TellError where
  | invalidObservation
deriving DecidableEq

/-- Is `x` a valid member of the normalized Space? -/
def validPointB (cfg : Config) (x : Pt) : Bool :=
  x.length = cfg.dims && x.all (fun c => 0 ≤ c && c ≤ 1)

/-- Modelled from the spec: `tell(x, y)` — validates the observation
(`InvalidObservation` on a NaN value or a point outside the Space),
appends it to the history and invalidates the batch cache. -/
def tell (s : OptState) (x : Pt) (y : YVal) : Except TellError OptState :=
  match y with
  | .nan => .error .invalidObservation
  | .val q =>
      if validPointB s.cfg x then
        .ok { s with Xi := s.Xi ++ [x], yi := s.yi ++ [q], cache := none }
      else .error .invalidObservation

/-- The caller-side state after a `tell`: the new state on success, the
unchanged one when `tell` raised. -/
def tellRun (s : OptState) (x : Pt) (y : YVal) : OptState :=
  match tell s x y with
  | .ok s' => s'
  | .error _ => s

/-- Internal unchecked append used by the constant-liar loop on its
cloned history. -/
def tellLie (s : OptState) (x : Pt) (q : ℚ) : OptState :=
  { s with Xi := s.Xi ++ [x], yi := s.yi ++ [q], cache := none }

/-- Modelled from the spec: the constant lie substituted for a pending
candidate — minimum, maximum or mean of the observed `y` so far, `0`
on an empty history. -/
def lieValue (strat : Strategy) (yi : List ℚ) : ℚ :=
  match yi with
  | [] => 0
  | _ =>
      match strat with
      | .cl_min => minY yi
      | .cl_max => maxY yi
      | .cl_mean => yi.sum / yi.length

/-- Modelled from the spec: the constant-liar candidate loop — ask one
candidate, append it to the cloned history with the lie value, refit,
repeat. -/
def clLoop (strat : Strategy) : ℕ → OptState → List Pt × OptState
  | 0, opt => ([], opt)
  | k + 1, opt =>
      let a := ask1 opt
      let lie := lieValue strat a.2.yi
      let opt₂ := tellLie a.2 a.1 lie
      let rest := clLoop strat k opt₂
      (a.1 :: rest.1, rest.2)

/-- Modelled from the spec: batch `ask(k, strategy)`.  A cache hit on
the same key returns the cached batch; otherwise the constant-liar loop
runs on a clone of the state, the clone's lie-augmented history is
discarded, and only the real candidate points are returned and
cached. -/
def askBatch (s : OptState) (k : ℕ) (strat : Strategy) : List Pt × OptState :=
  match s.cache with
  | some (key, x) =>
      if key = (k, strat) then (x, s)
      else
        let r := clLoop strat k s
        (r.1, { s with rng := r.2.rng, cache := some ((k, strat), r.1) })
  | none =>
      let r := clLoop strat k s
      (r.1, { s with rng := r.2.rng, cache := some ((k, strat), r.1) })

/-! ## Acquisition functions over the real posterior

The closed-form acquisition functions take the surrogate posterior mean
`mu`, standard deviation `sigma` and incumbent `y_opt` as reals. -/

/-- Standard normal probability density. -/
noncomputable def normPdf (z : ℝ) : ℝ := Real.exp (-(z ^ 2) / 2) / Real.sqrt (2 * Real.pi)

/-- Standard normal cumulative distribution function. -/
noncomputable def normCdf (z : ℝ) : ℝ := ∫ t in Set.Iic z, normPdf t

/-- Modelled from the spec: Expected Improvement acquisition score
`-E[max(y_opt - Y, 0)]` for `Y ~ N(mu, sigma^2)` in closed form, with
the safe branch returning 0 improvement when `sigma` is not positive. -/
noncomputable def gaussian_ei (mu sigma y_opt xi : ℝ) : ℝ :=
  if sigma ≤ 0 then 0
  else
    let improve := y_opt - xi - mu
    let z := improve / sigma
    Neg.neg (improve * normCdf z + sigma * normPdf z)

/-- Modelled from the spec: Probability of Improvement acquisition
score `-P(Y < y_opt - xi)`, with the safe branch returning 0
improvement when `sigma` is not positive. -/
noncomputable def gaussian_pi (mu sigma y_opt xi : ℝ) : ℝ :=
  if sigma ≤ 0 then 0 else -(normCdf ((y_opt - xi - mu) / sigma))

/-- Modelled from the spec: Lower Confidence Bound acquisition score
`mu - kappa * sigma`. -/
def gaussian_lcb (mu sigma kappa : ℝ) : ℝ := mu - kappa * sigma

/-! ## Reachable optimizer operations -/

/-- One caller-visible operation on the optimizer. -/
inductive Op where
  | askOne
  | askMany (k : ℕ) (strat : Strategy)
  | tellObs (x : Pt) (y : YVal)

/-- Apply one operation to the optimizer state. -/
def applyOp (s : OptState) : Op → OptState
  | .askOne => (ask1 s).2
  | .askMany k strat => (askBatch s k strat).2
  | .tellObs x y => tellRun s x y

/-- Apply a sequence of operations to the optimizer state. -/
def applyOps (s : OptState) (ops : List Op) : OptState := ops.foldl applyOp s

/-- Modelled from the spec: the optimizer is in `MODEL_PHASE` once the
told-observation count has reached the random-start budget. -/
def inModelPhase (s : OptState) : Prop := s.cfg.nRandomStarts ≤ s.yi.length

/-- Tell a whole list of observations in order. -/
def tellAll (s : OptState) (obs : List (Pt × ℚ)) : OptState :=
  obs.foldl (fun t o => tellRun t o.1 (.val o.2)) s

/-- Does a constant-liar batch run of `k` steps stay in the model phase
with a consistent history, and does every step's candidate pool reach
far enough from the augmented history that the acquisition can escape
it?  The distance condition plays the role of the spec's nontrivial
noise floor / diverse candidate pool. -/
def goodRun (strat : Strategy) : ℕ → OptState → Bool
  | 0, _ => true
  | k + 1, opt =>
      let stepOK :=
        decide (opt.cfg.nRandomStarts ≤ opt.yi.length) &&
        !opt.yi.isEmpty &&
        decide (opt.Xi.length = opt.yi.length) &&
        (samplePool opt.cfg opt.cfg.nPool opt.rng).1.any
          (fun c => decide (maxY opt.yi - minY opt.yi < opt.cfg.kappa * predictStd opt.Xi c))
      let a := ask1 opt
      let opt₂ := tellLie a.2 a.1 (lieValue strat a.2.yi)
      stepOK && goodRun strat k opt₂

/-! ## The Result object -/

/-- Modelled from the spec: the Result exposed to the caller — best
point and value, the full history in tell order, and the convergence
trace of running minima. -/
structure SkResult where
  x : Pt
  func : ℚ
  x_iters : List Pt
  func_vals : List ℚ
  convergence : List ℚ
deriving DecidableEq

/-- Running minimum continuation: each entry is the minimum of `cur`
and the values read so far. -/
def runningMinAux (cur : ℚ) : List ℚ → List ℚ
  | [] => []
  | y :: ys => min cur y :: runningMinAux (min cur y) ys

/-- Modelled from the spec: the convergence trace — after each told
observation, the minimum objective value seen so far. -/
def runningMin : List ℚ → List ℚ
  | [] => []
  | y :: ys => y :: runningMinAux y ys

/-- Modelled from the spec: build the Result from the optimizer state —
best value is the minimum told `y`, best point is the `x` told at the
earliest index attaining it, plus history and convergence trace.
`none` on an empty history. -/
def createResult (s : OptState) : Option SkResult :=
  match s.yi with
  | [] => none
  | _ =>
      some
        { x := s.Xi.getD (s.yi.indexOf (minY s.yi)) []
          func := minY s.yi
          x_iters := s.Xi
          func_vals := s.yi
          convergence := runningMin s.yi }

/-! ## Concrete fixtures for witness instantiations -/

/-- A small concrete optimizer configuration. -/
def cfgW : Config := { dims := 1, nRandomStarts := 4, kappa := 10, nPool := 3 }

/-- A fresh concrete optimizer state (nothing told yet). -/
def sW : OptState := { cfg := cfgW, Xi := [], yi := [], rng := 1, cache := none }

/-- A concrete optimizer state already past the random-start budget. -/
def sModelW : OptState :=
  { cfg := cfgW
    Xi := [[0], [1], [1/2], [1/4]]
    yi := [3, 7, 5, 4]
    rng := 1
    cache := none }

/-- A concrete model-phase state for the constant-liar batch witness. -/
def sC5 : OptState :=
  { cfg := { dims := 1, nRandomStarts := 1, kappa := 1, nPool := 1 }
    Xi := [[0]]
    yi := [5]
    rng := 0
    cache := none }

/-! ## Helper lemmas: minima and maxima of rational lists -/

theorem foldl_min_le_base (l : List ℚ) (a : ℚ) : l.foldl min a ≤ a := by
  induction l generalizing a with
  | nil => exact le_refl a
  | cons y ys ih => exact le_trans (ih (min a y)) (min_le_left a y)

theorem foldl_min_le_mem (l : List ℚ) (a : ℚ) : ∀ x ∈ l, l.foldl min a ≤ x := by
  induction l generalizing a with
  | nil => intro x hx; cases hx
  | cons y ys ih =>
      intro x hx
      cases hx with
      | head => exact le_trans (foldl_min_le_base ys (min a y)) (min_le_right a y)
      | tail _ h => exact ih (min a y) x h

theorem foldl_min_mem (l : List ℚ) (a : ℚ) : l.foldl min a = a ∨ l.foldl min a ∈ l := by
  induction l generalizing a with
  | nil => exact Or.inl rfl
  | cons y ys ih =>
      rcases ih (min a y) with h | h
      · rcases min_cases a y with ⟨h1, _⟩ | ⟨h1, _⟩
        · exact Or.inl (by rw [List.foldl_cons, h, h1])
        · exact Or.inr (by rw [List.foldl_cons, h, h1]; exact List.mem_cons_self y ys)
      · exact Or.inr (List.mem_cons_of_mem y h)

theorem minY_le (l : List ℚ) : ∀ x ∈ l, minY l ≤ x := by
  cases l with
  | nil => intro x hx; cases hx
  | cons y ys =>
      intro x hx
      cases hx with
      | head => exact foldl_min_le_base ys y
      | tail _ h => exact foldl_min_le_mem ys y x h

theorem minY_mem (l : List ℚ) (h : l ≠ []) : minY l ∈ l := by
  cases l with
  | nil => exact absurd rfl h
  | cons y ys =>
      rcases foldl_min_mem ys y with h1 | h1
      · rw [show minY (y :: ys) = ys.foldl min y from rfl, h1]
        exact List.mem_cons_self y ys
      · exact List.mem_cons_of_mem y h1

theorem minY_perm {l l' : List ℚ} (h : l.Perm l') : minY l = minY l' := by
  cases l with
  | nil =>
      have h2 : l' = [] := h.symm.eq_nil
      rw [h2]
  | cons y ys =>
      have hne : (y :: ys : List ℚ) ≠ [] := List.cons_ne_nil y ys
      have hne' : l' ≠ [] := by
        intro he
        subst he
        exact hne h.eq_nil
      apply le_antisymm
      · exact minY_le _ _ (h.symm.subset (minY_mem l' hne'))
      · exact minY_le _ _ (h.subset (minY_mem _ hne))

theorem base_le_foldl_max (l : List ℚ) (a : ℚ) : a ≤ l.foldl max a := by
  induction l generalizing a with
  | nil => exact le_refl a
  | cons y ys ih => exact le_trans (le_max_left a y) (ih (max a y))

theorem mem_le_foldl_max (l : List ℚ) (a : ℚ) : ∀ x ∈ l, x ≤ l.foldl max a := by
  induction l generalizing a with
  | nil => intro x hx; cases hx
  | cons y ys ih =>
      intro x hx
      cases hx with
      | head => exact le_trans (le_max_right a y) (base_le_foldl_max ys (max a y))
      | tail _ h => exact ih (max a y) x h

theorem le_maxY (l : List ℚ) : ∀ x ∈ l, x ≤ maxY l := by
  cases l with
  | nil => intro x hx; cases hx
  | cons y ys =>
      intro x hx
      cases hx with
      | head => exact base_le_foldl_max ys y
      | tail _ h => exact mem_le_foldl_max ys y x h

/-! ## Helper lemmas: distances and weights -/

theorem distL1_nonneg (u v : Pt) : 0 ≤ distL1 u v := by
  induction u generalizing v with
  | nil => simp [distL1]
  | cons a u ih =>
      cases v with
      | nil => simp [distL1]
      | cons b v =>
          have h1 := ih v
          have h2 : |a - b| ≥ 0 := abs_nonneg _
          simp only [distL1, List.zipWith_cons_cons, List.sum_cons] at h1 ⊢
          linarith

theorem distL1_self (u : Pt) : distL1 u u = 0 := by
  induction u with
  | nil => simp [distL1]
  | cons a u ih => simp only [distL1, List.zipWith_cons_cons, List.sum_cons] at ih ⊢; simp [ih]

theorem weight_pos (c p : Pt) : 0 < weight c p := by
  have h := distL1_nonneg c p
  have hd : (0 : ℚ) < 1 + distL1 c p := by linarith
  exact div_pos one_pos hd

theorem sum_weights_pos (c : Pt) (Xi : List Pt) (h : Xi ≠ []) :
    0 < (Xi.map (weight c)).sum := by
  cases Xi with
  | nil => exact absurd rfl h
  | cons p ps =>
      have h1 : 0 < weight c p := weight_pos c p
      have h2 : 0 ≤ (ps.map (weight c)).sum :=
        List.sum_nonneg (by
          intro x hx
          rcases List.mem_map.mp hx with ⟨q, _, hq⟩
          exact hq ▸ le_of_lt (weight_pos c q))
      simp only [List.map_cons, List.sum_cons]
      linarith

/-! ## Helper lemmas: the acquisition argmin -/

theorem argminBy_eq_none (f : Pt → ℚ) (l : List Pt) : argminBy f l = none ↔ l = [] := by
  cases l with
  | nil => simp [argminBy]
  | cons c cs =>
      simp only [argminBy]
      constructor
      · intro h
        cases h2 : argminBy f cs with
        | none => rw [h2] at h; cases h
        | some b => rw [h2] at h; by_cases hle : f c ≤ f b <;> simp [hle] at h
      · intro h; cases h

theorem argminBy_mem (f : Pt → ℚ) (l : List Pt) : ∀ b, argminBy f l = some b → b ∈ l := by
  induction l with
  | nil => intro b h; cases h
  | cons c cs ih =>
      intro b h
      simp only [argminBy] at h
      cases h2 : argminBy f cs with
      | none =>
          rw [h2] at h
          dsimp only at h
          injection h with h
          subst h
          exact List.mem_cons_self c cs
      | some b' =>
          rw [h2] at h
          dsimp only at h
          by_cases hle : f c ≤ f b'
          · rw [if_pos hle] at h
            injection h with h
            subst h
            exact List.mem_cons_self c cs
          · rw [if_neg hle] at h
            injection h with h
            subst h
            exact List.mem_cons_of_mem c (ih b' h2)

theorem argminBy_le (f : Pt → ℚ) (l : List Pt) :
    ∀ b, argminBy f l = some b → ∀ x ∈ l, f b ≤ f x := by
  induction l with
  | nil => intro b h; cases h
  | cons c cs ih =>
      intro b h x hx
      simp only [argminBy] at h
      cases h2 : argminBy f cs with
      | none =>
          have hcs : cs = [] := (argminBy_eq_none f cs).mp h2
          rw [h2] at h
          dsimp only at h
          injection h with h
          subst h
          subst hcs
          rcases List.mem_singleton.mp hx with rfl
          exact le_refl _
      | some b' =>
          rw [h2] at h
          dsimp only at h
          by_cases hle : f c ≤ f b'
          · rw [if_pos hle] at h
            injection h with h
            subst h
            cases hx with
            | head => exact le_refl _
            | tail _ hmem => exact le_trans hle (ih b' h2 x hmem)
          · rw [if_neg hle] at h
            injection h with h
            subst h
            cases hx with
            | head => exact le_of_lt (lt_of_not_le hle)
            | tail _ hmem => exact ih b' h2 x hmem

/-! ## Helper lemmas: frame properties of the optimizer operations -/

theorem ask1_frame (s : OptState) :
    (ask1 s).2.cfg = s.cfg ∧ (ask1 s).2.Xi = s.Xi ∧ (ask1 s).2.yi = s.yi := by
  unfold ask1
  split
  · exact ⟨rfl, rfl, rfl⟩
  · dsimp only
    cases argminBy (lcbScore s.cfg s.Xi s.yi) (samplePool s.cfg s.cfg.nPool s.rng).1 <;>
      exact ⟨rfl, rfl, rfl⟩

theorem tellLie_fields (s : OptState) (x : Pt) (q : ℚ) :
    (tellLie s x q).cfg = s.cfg ∧ (tellLie s x q).Xi = s.Xi ++ [x] ∧
      (tellLie s x q).yi = s.yi ++ [q] := ⟨rfl, rfl, rfl⟩

theorem tellRun_cases (s : OptState) (x : Pt) (y : YVal) :
    tellRun s x y = s ∨
      ∃ q, y = .val q ∧ tellRun s x y =
        { s with Xi := s.Xi ++ [x], yi := s.yi ++ [q], cache := none } := by
  cases y with
  | nan => exact Or.inl rfl
  | val q =>
      by_cases h : validPointB s.cfg x
      · exact Or.inr ⟨q, rfl, by simp [tellRun, tell, h]⟩
      · exact Or.inl (by simp [tellRun, tell, h])

theorem clLoop_length (strat : Strategy) (k : ℕ) :
    ∀ opt, (clLoop strat k opt).1.length = k := by
  induction k with
  | zero => intro opt; rfl
  | succ k ih =>
      intro opt
      simp only [clLoop, List.length_cons]
      rw [ih]

theorem askBatch_frame_aux (s : OptState) (k : ℕ) (strat : Strategy) :
    (askBatch s k strat).2.cfg = s.cfg ∧ (askBatch s k strat).2.Xi = s.Xi ∧
      (askBatch s k strat).2.yi = s.yi := by
  unfold askBatch
  cases s.cache with
  | none => exact ⟨rfl, rfl, rfl⟩
  | some kv =>
      dsimp only
      split
      · exact ⟨rfl, rfl, rfl⟩
      · exact ⟨rfl, rfl, rfl⟩

theorem askBatch_miss (s : OptState) (k : ℕ) (strat : Strategy) (h : s.cache = none) :
    askBatch s k strat =
      ((clLoop strat k s).1,
        { s with rng := (clLoop strat k s).2.rng, cache := some ((k, strat), (clLoop strat k s).1) }) := by
  unfold askBatch
  rw [h]

theorem applyOp_monotone (s : OptState) (op : Op) :
    (applyOp s op).cfg = s.cfg ∧ s.yi.length ≤ (applyOp s op).yi.length := by
  cases op with
  | askOne =>
      rcases ask1_frame s with ⟨h1, _, h3⟩
      simp only [applyOp]
      exact ⟨h1, le_of_eq (by rw [h3])⟩
  | askMany k strat =>
      rcases askBatch_frame_aux s k strat with ⟨h1, _, h3⟩
      simp only [applyOp]
      exact ⟨h1, le_of_eq (by rw [h3])⟩
  | tellObs x y =>
      simp only [applyOp]
      rcases tellRun_cases s x y with h | ⟨q, _, h⟩
      · rw [h]
        exact ⟨rfl, le_refl _⟩
      · rw [h]
        simp

theorem applyOps_monotone (ops : List Op) :
    ∀ s : OptState, (applyOps s ops).cfg = s.cfg ∧
      s.yi.length ≤ (applyOps s ops).yi.length := by
  induction ops with
  | nil => intro s; exact ⟨rfl, le_refl _⟩
  | cons op ops ih =>
      intro s
      have hstep : applyOps s (op :: ops) = applyOps (applyOp s op) ops := by
        simp [applyOps]
      rcases applyOp_monotone s op with ⟨h1, h2⟩
      rcases ih (applyOp s op) with ⟨h3, h4⟩
      rw [hstep]
      exact ⟨by rw [h3, h1], le_trans h2 h4⟩

/-! ## Helper lemmas: the notebook objective -/

theorem foldMAE_nonneg (errs : List ℚ) : 0 ≤ foldMAE errs := by
  apply div_nonneg
  · apply List.sum_nonneg
    intro x hx
    rcases List.mem_map.mp hx with ⟨e, _, he⟩
    exact he ▸ abs_nonneg e
  · exact Nat.cast_nonneg _

theorem sum_neg_mae (folds : List (List ℚ)) :
    (folds.map negMeanAbsoluteError).sum = -((folds.map foldMAE).sum) := by
  induction folds with
  | nil => simp
  | cons f fs ih =>
      simp only [List.map_cons, List.sum_cons, negMeanAbsoluteError, ih]
      ring

/-! ## Helper lemmas: random sampling stays inside the Space -/

theorem sampleCoords_length (n : ℕ) : ∀ s, (sampleCoords n s).1.length = n := by
  induction n with
  | zero => intro s; rfl
  | succ n ih =>
      intro s
      simp only [sampleCoords, List.length_cons]
      rw [ih]

theorem coord_bounds (s : ℕ) : 0 ≤ coord s ∧ coord s ≤ 1 := by
  constructor
  · exact div_nonneg (Nat.cast_nonneg _) (by norm_num)
  · rw [coord, div_le_one (by norm_num : (0 : ℚ) < 999)]
    have h : s % 1000 < 1000 := Nat.mod_lt _ (by norm_num)
    exact_mod_cast Nat.le_of_lt_succ h

theorem sampleCoords_bounds (n : ℕ) : ∀ s, ∀ c ∈ (sampleCoords n s).1, 0 ≤ c ∧ c ≤ 1 := by
  induction n with
  | zero => intro s c hc; simp [sampleCoords] at hc
  | succ n ih =>
      intro s c hc
      simp only [sampleCoords] at hc
      cases hc with
      | head => exact coord_bounds _
      | tail _ h => exact ih _ c h

theorem validPointB_samplePoint (cfg : Config) (r : ℕ) :
    validPointB cfg (samplePoint cfg r).1 = true := by
  unfold validPointB samplePoint
  rw [Bool.and_eq_true]
  constructor
  · simp [sampleCoords_length]
  · rw [List.all_eq_true]
    intro c hc
    rcases sampleCoords_bounds cfg.dims r c hc with ⟨h1, h2⟩
    simp [h1, h2]

theorem clLoop_random_valid (strat : Strategy) (k : ℕ) :
    ∀ opt : OptState, opt.yi.length + k ≤ opt.cfg.nRandomStarts →
      ∀ p ∈ (clLoop strat k opt).1, validPointB opt.cfg p = true := by
  induction k with
  | zero => intro opt h p hp; cases hp
  | succ k ih =>
      intro opt h p hp
      have hlt : opt.yi.length < opt.cfg.nRandomStarts := by omega
      have hask : ask1 opt =
          ((samplePoint opt.cfg opt.rng).1,
            { opt with rng := (samplePoint opt.cfg opt.rng).2 }) := by
        unfold ask1
        rw [if_pos hlt]
      simp only [clLoop] at hp
      rw [hask] at hp
      dsimp only at hp
      cases hp with
      | head => exact validPointB_samplePoint opt.cfg opt.rng
      | tail _ hp2 =>
          have hres := ih
            (tellLie { opt with rng := (samplePoint opt.cfg opt.rng).2 }
              (samplePoint opt.cfg opt.rng).1 (lieValue strat opt.yi))
            (by simp [tellLie]; omega) p hp2
          simpa [tellLie] using hres

/-! ## Claim theorems -/

/-- C2: a batch `ask(k)` under the constant-liar strategy leaves the
permanent observation history exactly as it was — the lie observations
appended during candidate generation are all discarded — and, on a
fresh cache, the returned list is the constant-liar loop's `k` real
candidate points. -/
theorem askBatch_preserves_history (s : OptState) (k : ℕ) (strat : Strategy) :
    ((askBatch s k strat).2.Xi = s.Xi ∧ (askBatch s k strat).2.yi = s.yi) ∧
      (s.cache = none →
        (askBatch s k strat).1 = (clLoop strat k s).1 ∧
          (askBatch s k strat).1.length = k) := by
  refine ⟨⟨(askBatch_frame_aux s k strat).2.1, (askBatch_frame_aux s k strat).2.2⟩, ?_⟩
  intro hc
  rw [askBatch_miss s k strat hc]
  exact ⟨rfl, clLoop_length strat k s⟩

/-- Witness for C2 at a concrete fresh state and `k = 3`. -/
theorem askBatch_preserves_history_witness :
    ((askBatch sW 3 .cl_max).2.Xi = sW.Xi ∧ (askBatch sW 3 .cl_max).2.yi = sW.yi) ∧
      ((askBatch sW 3 .cl_max).1 = (clLoop .cl_max 3 sW).1 ∧
        (askBatch sW 3 .cl_max).1.length = 3) :=
  ⟨(askBatch_preserves_history sW 3 .cl_max).1,
    (askBatch_preserves_history sW 3 .cl_max).2 rfl⟩

/-- C4: while the told-observation count is below the random-start
budget, `ask` returns the pure random Space sample determined by the
rng state alone (the same point for any history of that phase — the
surrogate is never consulted); and the transition to the model phase is
one-directional: once reached, no sequence of `ask`/`tell` operations
leaves it. -/
theorem random_phase_and_transition (s : OptState) :
    (s.yi.length < s.cfg.nRandomStarts →
      (ask1 s).1 = (samplePoint s.cfg s.rng).1 ∧
        (∀ s' : OptState, s'.cfg = s.cfg → s'.rng = s.rng →
          s'.yi.length < s'.cfg.nRandomStarts → (ask1 s').1 = (ask1 s).1)) ∧
      (∀ ops : List Op, inModelPhase s → inModelPhase (applyOps s ops)) := by
  constructor
  · intro h
    constructor
    · unfold ask1
      rw [if_pos h]
    · intro s' h1 h2 h3
      unfold ask1
      rw [if_pos h3, if_pos h, h1, h2]
  · intro ops h
    rcases applyOps_monotone ops s with ⟨h1, h2⟩
    unfold inModelPhase at h ⊢
    rw [h1]
    exact le_trans h h2

/-- Witness for C4: random-phase `ask` at a fresh concrete state, and
phase persistence across a concrete operation sequence. -/
theorem random_phase_and_transition_witness :
    (ask1 sW).1 = (samplePoint sW.cfg sW.rng).1 ∧
      inModelPhase (applyOps sModelW [Op.askOne, Op.tellObs [0] (.val 2)]) :=
  ⟨((random_phase_and_transition sW).1 (by decide)).1,
    (random_phase_and_transition sModelW).2 [Op.askOne, Op.tellObs [0] (.val 2)]
      (show sModelW.cfg.nRandomStarts ≤ sModelW.yi.length by decide)⟩

/-- C6: `tell` with a NaN objective value raises `InvalidObservation`,
and the failed call is atomic — the caller-visible state, hence the
stored history and the running best, is exactly the state before the
call. -/
theorem tell_nan_invalid :
    ∀ (s : OptState) (x : Pt),
      tell s x .nan = .error .invalidObservation ∧ tellRun s x .nan = s :=
  fun _ _ => ⟨rfl, rfl⟩

/-- C7: every acquisition function is total, and at `sigma = 0` the
safe branch avoids the division by zero: Expected Improvement and
Probability of Improvement degenerate to the defined score 0 (zero
improvement), and the Lower Confidence Bound equals the mean, for every
`mu` and every `y_opt`. -/
theorem acquisition_sigma_zero :
    ∀ mu y_opt xiv kappa : ℝ,
      gaussian_ei mu 0 y_opt xiv = 0 ∧ gaussian_pi mu 0 y_opt xiv = 0 ∧
        gaussian_lcb mu 0 kappa = mu := by
  intro mu y_opt xiv kappa
  refine ⟨?_, ?_, ?_⟩
  · simp [gaussian_ei]
  · simp [gaussian_pi]
  · simp [gaussian_lcb]

/-- C10: the notebook's objective equals the (nonnegative) mean of the
per-fold mean absolute errors — the negation of the mean of sklearn's
negated per-fold scores — so lower values are better, matching the
minimization convention of `gp_minimize`. -/
theorem objective_nonneg_mean_mae :
    ∀ folds : List (List ℚ),
      objective folds = ((folds.map foldMAE).sum) / folds.length ∧
        0 ≤ objective folds := by
  intro folds
  have heq : objective folds = ((folds.map foldMAE).sum) / folds.length := by
    rw [objective, sum_neg_mae, neg_div, neg_neg]
  refine ⟨heq, ?_⟩
  rw [heq]
  apply div_nonneg
  · apply List.sum_nonneg
    intro x hx
    rcases List.mem_map.mp hx with ⟨f, _, hf⟩
    exact hf ▸ foldMAE_nonneg f
  · exact Nat.cast_nonneg _

/-- C1: for every well-formed Dimension (Integer, Real with uniform or
log-uniform prior, Categorical) and every valid native value `x`,
`inverse_transform (transform x)` recovers `x` exactly (the exact-real
model of "within floating-point tolerance"); in particular for a
log-uniform Real dimension the transform applies `log` before min-max
scaling and the inverse applies the corresponding exponential. -/
theorem dimension_transform_roundtrip (d : Dim) (x : Value)
    (hwf : d.wellFormed) (hv : d.valid x) :
    ∃ t, d.transform x = some t ∧ d.inverse_transform t = some x := by
  cases d with
  | integer low high =>
      cases x with
      | intV i =>
          refine ⟨_, rfl, ?_⟩
          simp only [Dim.inverse_transform]
          have hlh : (low : ℝ) < (high : ℝ) := by exact_mod_cast hwf
          have hne : (high : ℝ) - (low : ℝ) ≠ 0 := by linarith
          rw [div_mul_cancel₀ _ hne]
          rw [show (low : ℝ) + ((i : ℝ) - (low : ℝ)) = (i : ℝ) by ring]
          rw [round_intCast]
      | realV r => exact absurd hv (by simp [Dim.valid])
      | catV c => exact absurd hv (by simp [Dim.valid])
  | real low high prior =>
      cases x with
      | intV i => exact absurd hv (by simp [Dim.valid])
      | realV r =>
          cases prior with
          | uniform =>
              refine ⟨_, rfl, ?_⟩
              simp only [Dim.inverse_transform]
              have hlh : low < high := hwf
              have hne : high - low ≠ 0 := by linarith
              rw [div_mul_cancel₀ _ hne]
              rw [show low + (r - low) = r by ring]
          | loguniform =>
              rcases hwf with ⟨h0, hlh⟩
              rcases hv with ⟨hr, _⟩
              refine ⟨_, rfl, ?_⟩
              simp only [Dim.inverse_transform]
              have hne : Real.log high - Real.log low ≠ 0 := by
                have := Real.log_lt_log h0 hlh
                linarith
              rw [div_mul_cancel₀ _ hne]
              rw [show Real.log low + (Real.log r - Real.log low) = Real.log r by ring]
              rw [Real.exp_log (lt_of_lt_of_le h0 hr)]
      | catV c => exact absurd hv (by simp [Dim.valid])
  | categorical cats =>
      cases x with
      | intV i => exact absurd hv (by simp [Dim.valid])
      | realV r => exact absurd hv (by simp [Dim.valid])
      | catV c =>
          refine ⟨_, rfl, ?_⟩
          simp only [Dim.inverse_transform]
          rw [round_natCast, Int.toNat_natCast]
          rw [List.indexOf_get? hv]
          rfl

/-- Witness for C1 at the log-uniform Real dimension `(1, 2)` and the
native value `1`. -/
theorem dimension_transform_roundtrip_witness :
    ∃ t, (Dim.real 1 2 .loguniform).transform (.realV 1) = some t ∧
      (Dim.real 1 2 .loguniform).inverse_transform t = some (.realV 1) :=
  dimension_transform_roundtrip (Dim.real 1 2 .loguniform) (.realV 1)
    ⟨one_pos, one_lt_two⟩ ⟨le_refl 1, one_le_two⟩

/-- C8: under a fixed seed, `ask(k=4)` before any `tell` returns 4
valid members of the Space produced purely by random-phase sampling,
and a second `ask` without any intervening `tell` returns exactly the
same points (the optimizer is a pure function of its state, so two runs
from identical states coincide). -/
theorem ask_before_tell_deterministic (s : OptState) (strat : Strategy)
    (hyi : s.yi = []) (hc : s.cache = none) (hn : 4 ≤ s.cfg.nRandomStarts) :
    (askBatch s 4 strat).1.length = 4 ∧
      (∀ p ∈ (askBatch s 4 strat).1, validPointB s.cfg p = true) ∧
      (askBatch (askBatch s 4 strat).2 4 strat).1 = (askBatch s 4 strat).1 := by
  have hmiss := askBatch_miss s 4 strat hc
  refine ⟨?_, ?_, ?_⟩
  · rw [hmiss]
    exact clLoop_length strat 4 s
  · rw [hmiss]
    intro p hp
    exact clLoop_random_valid strat 4 s (by rw [hyi]; simpa using hn) p hp
  · rw [hmiss]
    simp [askBatch]

/-- Witness for C8 at the fresh concrete state. -/
theorem ask_before_tell_deterministic_witness :
    (askBatch sW 4 .cl_max).1.length = 4 ∧
      (∀ p ∈ (askBatch sW 4 .cl_max).1, validPointB sW.cfg p = true) ∧
      (askBatch (askBatch sW 4 .cl_max).2 4 .cl_max).1 = (askBatch sW 4 .cl_max).1 :=
  ask_before_tell_deterministic sW .cl_max rfl rfl (by decide)

/-! ## Helper lemmas: the Result object -/

theorem indexOf_spec (l : List ℚ) (a : ℚ) (h : a ∈ l) :
    l.indexOf a < l.length ∧ l.getD (l.indexOf a) 0 = a ∧
      ∀ j, j < l.indexOf a → l.getD j 0 ≠ a := by
  induction l with
  | nil => cases h
  | cons y ys ih =>
      by_cases hy : y = a
      · subst hy
        refine ⟨?_, ?_, ?_⟩
        · rw [List.indexOf_cons_self]
          exact Nat.succ_pos _
        · rw [List.indexOf_cons_self]
          rfl
        · intro j hj
          rw [List.indexOf_cons_self] at hj
          cases hj
      · have hmem : a ∈ ys := by
          cases h with
          | head => exact absurd rfl hy
          | tail _ h2 => exact h2
        rcases ih hmem with ⟨h1, h2, h3⟩
        have hidx : (y :: ys).indexOf a = ys.indexOf a + 1 := by
          rw [List.indexOf_cons_ne _ hy]
        refine ⟨?_, ?_, ?_⟩
        · rw [hidx]
          simpa using Nat.succ_lt_succ h1
        · rw [hidx]
          simpa using h2
        · intro j hj
          rw [hidx] at hj
          cases j with
          | zero => simpa using hy
          | succ j => simpa using h3 j (Nat.lt_of_succ_lt_succ hj)

theorem runningMinAux_length (l : List ℚ) :
    ∀ cur, (runningMinAux cur l).length = l.length := by
  induction l with
  | nil => intro cur; rfl
  | cons y ys ih =>
      intro cur
      simp only [runningMinAux, List.length_cons]
      rw [ih]

theorem runningMinAux_getD (l : List ℚ) :
    ∀ cur i, i < l.length →
      (runningMinAux cur l).getD i 0 = (l.take (i + 1)).foldl min cur := by
  induction l with
  | nil => intro cur i h; cases h
  | cons y ys ih =>
      intro cur i h
      cases i with
      | zero => rfl
      | succ i =>
          simp only [runningMinAux, List.take, List.foldl_cons]
          have := ih (min cur y) i (by simpa using Nat.lt_of_succ_lt_succ h)
          simpa using this

theorem runningMin_length (l : List ℚ) : (runningMin l).length = l.length := by
  cases l with
  | nil => rfl
  | cons y ys => simp [runningMin, runningMinAux_length]

theorem runningMin_getD (l : List ℚ) (i : ℕ) (h : i < l.length) :
    (runningMin l).getD i 0 = minY (l.take (i + 1)) := by
  cases l with
  | nil => cases h
  | cons y ys =>
      cases i with
      | zero => rfl
      | succ i =>
          have hlen : i < ys.length := by simpa using Nat.lt_of_succ_lt_succ h
          have haux := runningMinAux_getD ys y i hlen
          simp only [runningMin, List.getD_cons_succ]
          rw [haux]
          rfl

theorem createResult_eq (s : OptState) (h : s.yi ≠ []) :
    createResult s = some
      { x := s.Xi.getD (s.yi.indexOf (minY s.yi)) []
        func := minY s.yi
        x_iters := s.Xi
        func_vals := s.yi
        convergence := runningMin s.yi } := by
  unfold createResult
  cases hy : s.yi with
  | nil => exact absurd hy h
  | cons y ys => rfl

/-- C9: for a non-empty told history the Result's best scalar value is
the minimum of all told `y` values, its best point is the `x` told at
the earliest index attaining that minimum, and its convergence trace
has one entry per told observation, the `i`-th being the minimum of the
first `i + 1` told values. -/
theorem result_spec (s : OptState) (h : s.yi ≠ []) :
    ∃ r, createResult s = some r ∧
      (r.func ∈ s.yi ∧ ∀ y ∈ s.yi, r.func ≤ y) ∧
      (r.x = s.Xi.getD (s.yi.indexOf r.func) [] ∧
        s.yi.getD (s.yi.indexOf r.func) 0 = r.func ∧
        ∀ j, j < s.yi.indexOf r.func → s.yi.getD j 0 ≠ r.func) ∧
      r.convergence.length = s.yi.length ∧
      (∀ i, i < s.yi.length → r.convergence.getD i 0 = minY (s.yi.take (i + 1))) := by
  refine ⟨_, createResult_eq s h, ⟨minY_mem s.yi h, minY_le s.yi⟩, ?_, ?_, ?_⟩
  · rcases indexOf_spec s.yi (minY s.yi) (minY_mem s.yi h) with ⟨_, h2, h3⟩
    exact ⟨rfl, h2, h3⟩
  · exact runningMin_length s.yi
  · intro i hi
    exact runningMin_getD s.yi i hi

/-- Witness for C9 at a concrete populated state. -/
theorem result_spec_witness :
    ∃ r, createResult sModelW = some r ∧
      (r.func ∈ sModelW.yi ∧ ∀ y ∈ sModelW.yi, r.func ≤ y) ∧
      (r.x = sModelW.Xi.getD (sModelW.yi.indexOf r.func) [] ∧
        sModelW.yi.getD (sModelW.yi.indexOf r.func) 0 = r.func ∧
        ∀ j, j < sModelW.yi.indexOf r.func → sModelW.yi.getD j 0 ≠ r.func) ∧
      r.convergence.length = sModelW.yi.length ∧
      (∀ i, i < sModelW.yi.length →
        r.convergence.getD i 0 = minY (sModelW.yi.take (i + 1))) :=
  result_spec sModelW (by decide)

/-! ## Helper lemmas: order-independence of the fitted surrogate -/

theorem zipWith_map_pair (g : Pt → ℚ → ℚ) (l : List (Pt × ℚ)) :
    List.zipWith g (l.map Prod.fst) (l.map Prod.snd) = l.map (fun o => g o.1 o.2) := by
  induction l with
  | nil => rfl
  | cons o os ih => simp [ih]

theorem tellAll_fields (obs : List (Pt × ℚ)) :
    ∀ s : OptState,
      (tellAll s obs).cfg = s.cfg ∧
      (tellAll s obs).Xi =
        s.Xi ++ ((obs.filter (fun o => validPointB s.cfg o.1)).map Prod.fst) ∧
      (tellAll s obs).yi =
        s.yi ++ ((obs.filter (fun o => validPointB s.cfg o.1)).map Prod.snd) := by
  induction obs with
  | nil => intro s; simp [tellAll]
  | cons o os ih =>
      intro s
      have hstep : tellAll s (o :: os) = tellAll (tellRun s o.1 (.val o.2)) os := rfl
      by_cases hv : validPointB s.cfg o.1
      · have hs' : tellRun s o.1 (.val o.2) =
            { s with Xi := s.Xi ++ [o.1], yi := s.yi ++ [o.2], cache := none } := by
          simp [tellRun, tell, hv]
        rcases ih { s with Xi := s.Xi ++ [o.1], yi := s.yi ++ [o.2], cache := none }
          with ⟨h1, h2, h3⟩
        rw [hstep, hs']
        refine ⟨h1, ?_, ?_⟩
        · rw [h2]
          simp [List.filter_cons, hv]
        · rw [h3]
          simp [List.filter_cons, hv]
      · have hs' : tellRun s o.1 (.val o.2) = s := by
          simp [tellRun, tell, hv]
        rcases ih s with ⟨h1, h2, h3⟩
        rw [hstep, hs']
        refine ⟨h1, ?_, ?_⟩
        · rw [h2]
          simp [List.filter_cons, hv]
        · rw [h3]
          simp [List.filter_cons, hv]

theorem predictStd_eq (Xi : List Pt) (c : Pt) (h : Xi ≠ []) :
    predictStd Xi c = minY (Xi.map (distL1 c)) := by
  cases Xi with
  | nil => exact absurd rfl h
  | cons p ps => rfl

theorem predictStd_perm {Xi Xi' : List Pt} (c : Pt) (h : Xi.Perm Xi') :
    predictStd Xi c = predictStd Xi' c := by
  cases Xi with
  | nil =>
      have : Xi' = [] := h.symm.eq_nil
      rw [this]
  | cons p ps =>
      have hne : (p :: ps : List Pt) ≠ [] := List.cons_ne_nil p ps
      have hne' : Xi' ≠ [] := by
        intro he
        subst he
        exact hne h.eq_nil
      rw [predictStd_eq _ c hne, predictStd_eq _ c hne']
      exact minY_perm (h.map (distL1 c))

/-- C3: telling the same multiset of observations in any order yields
the same fitted surrogate (identical posterior mean and standard
deviation at every test point) and the same best value; the best-point
tie rule (earliest-told occurrence) concerns the point only, so the
best value is order-independent. -/
theorem tell_order_independent (s : OptState) (obs obs' : List (Pt × ℚ)) (c : Pt)
    (hlen : s.Xi.length = s.yi.length) (hperm : obs.Perm obs') :
    predictMean (tellAll s obs).Xi (tellAll s obs).yi c
        = predictMean (tellAll s obs').Xi (tellAll s obs').yi c ∧
      predictStd (tellAll s obs).Xi c = predictStd (tellAll s obs').Xi c ∧
      minY (tellAll s obs).yi = minY (tellAll s obs').yi := by
  rcases tellAll_fields obs s with ⟨_, hXi, hyi⟩
  rcases tellAll_fields obs' s with ⟨_, hXi', hyi'⟩
  have hl : (obs.filter (fun o => validPointB s.cfg o.1)).Perm
      (obs'.filter (fun o => validPointB s.cfg o.1)) := hperm.filter _
  have hXiperm : (tellAll s obs).Xi.Perm (tellAll s obs').Xi := by
    rw [hXi, hXi']
    exact (hl.map Prod.fst).append_left s.Xi
  have hyiperm : (tellAll s obs).yi.Perm (tellAll s obs').yi := by
    rw [hyi, hyi']
    exact (hl.map Prod.snd).append_left s.yi
  refine ⟨?_, predictStd_perm c hXiperm, minY_perm hyiperm⟩
  unfold predictMean
  have hnum : (List.zipWith (fun p y => weight c p * y)
        (tellAll s obs).Xi (tellAll s obs).yi).sum =
      (List.zipWith (fun p y => weight c p * y)
        (tellAll s obs').Xi (tellAll s obs').yi).sum := by
    rw [hXi, hyi, hXi', hyi']
    rw [List.zipWith_append _ _ _ _ _ (by rw [hlen])]
    rw [List.zipWith_append _ _ _ _ _ (by rw [hlen])]
    rw [List.sum_append, List.sum_append]
    rw [zipWith_map_pair, zipWith_map_pair]
    rw [(hl.map (fun o => weight c o.1 * o.2)).sum_eq]
  have hden : ((tellAll s obs).Xi.map (weight c)).sum =
      ((tellAll s obs').Xi.map (weight c)).sum := by
    exact (hXiperm.map (weight c)).sum_eq
  rw [hnum, hden]

/-- Witness for C3 on two concretely permuted observation lists. -/
theorem tell_order_independent_witness :
    predictMean (tellAll sW [([1/2], 3), ([1/4], 5)]).Xi
        (tellAll sW [([1/2], 3), ([1/4], 5)]).yi [0]
      = predictMean (tellAll sW [([1/4], 5), ([1/2], 3)]).Xi
          (tellAll sW [([1/4], 5), ([1/2], 3)]).yi [0] ∧
    predictStd (tellAll sW [([1/2], 3), ([1/4], 5)]).Xi [0]
      = predictStd (tellAll sW [([1/4], 5), ([1/2], 3)]).Xi [0] ∧
    minY (tellAll sW [([1/2], 3), ([1/4], 5)]).yi
      = minY (tellAll sW [([1/4], 5), ([1/2], 3)]).yi :=
  tell_order_independent sW [([1/2], 3), ([1/4], 5)] [([1/4], 5), ([1/2], 3)] [0]
    rfl (List.Perm.swap ([1/4], 5) ([1/2], 3) [])

/-! ## Helper lemmas: posterior bounds and batch diversity -/

theorem zipWith_weighted_bounds (c : Pt) (m M : ℚ) :
    ∀ (Xi : List Pt) (yi : List ℚ), Xi.length = yi.length →
      (∀ y ∈ yi, m ≤ y) → (∀ y ∈ yi, y ≤ M) →
      m * (Xi.map (weight c)).sum ≤
          (List.zipWith (fun p y => weight c p * y) Xi yi).sum ∧
        (List.zipWith (fun p y => weight c p * y) Xi yi).sum ≤
          M * (Xi.map (weight c)).sum := by
  intro Xi
  induction Xi with
  | nil =>
      intro yi hlen hm hM
      simp
  | cons p ps ih =>
      intro yi hlen hm hM
      cases yi with
      | nil => cases hlen
      | cons y ys =>
          have hlen' : ps.length = ys.length := by simpa using hlen
          rcases ih ys hlen' (fun z hz => hm z (List.mem_cons_of_mem y hz))
            (fun z hz => hM z (List.mem_cons_of_mem y hz)) with ⟨ih1, ih2⟩
          have hw : 0 < weight c p := weight_pos c p
          have hy1 : m ≤ y := hm y (List.mem_cons_self y ys)
          have hy2 : y ≤ M := hM y (List.mem_cons_self y ys)
          have h1 : m * weight c p ≤ weight c p * y := by
            rw [mul_comm]
            exact mul_le_mul_of_nonneg_left hy1 (le_of_lt hw)
          have h2 : weight c p * y ≤ M * weight c p := by
            rw [mul_comm M (weight c p)]
            exact mul_le_mul_of_nonneg_left hy2 (le_of_lt hw)
          simp only [List.zipWith_cons_cons, List.sum_cons, List.map_cons, mul_add]
          exact ⟨by linarith, by linarith⟩

theorem predictMean_bounds (Xi : List Pt) (yi : List ℚ) (c : Pt)
    (hlen : Xi.length = yi.length) (hyne : yi ≠ []) :
    minY yi ≤ predictMean Xi yi c ∧ predictMean Xi yi c ≤ maxY yi := by
  have hXine : Xi ≠ [] := by
    intro hXi
    apply hyne
    cases yi with
    | nil => rfl
    | cons y ys => rw [hXi] at hlen; cases hlen
  have hS : 0 < (Xi.map (weight c)).sum := sum_weights_pos c Xi hXine
  rcases zipWith_weighted_bounds c (minY yi) (maxY yi) Xi yi hlen (minY_le yi) (le_maxY yi)
    with ⟨h1, h2⟩
  constructor
  · rw [predictMean, le_div_iff₀ hS]
    exact h1
  · rw [predictMean, div_le_iff₀ hS]
    exact h2

theorem predictStd_nonneg (Xi : List Pt) (c : Pt) : 0 ≤ predictStd Xi c := by
  cases Xi with
  | nil => norm_num [predictStd]
  | cons p ps =>
      rw [predictStd_eq _ c (List.cons_ne_nil p ps)]
      have hmem := minY_mem ((p :: ps).map (distL1 c)) (by simp)
      rcases List.mem_map.mp hmem with ⟨q, _, hq⟩
      rw [← hq]
      exact distL1_nonneg c q

theorem predictStd_le_dist (Xi : List Pt) (c : Pt) (hne : Xi ≠ []) :
    ∀ p ∈ Xi, predictStd Xi c ≤ distL1 c p := by
  intro p hp
  rw [predictStd_eq _ c hne]
  exact minY_le _ (distL1 c p) (List.mem_map_of_mem (distL1 c) hp)

theorem clStep_pos_dist (opt : OptState)
    (hmodel : opt.cfg.nRandomStarts ≤ opt.yi.length)
    (hlen : opt.Xi.length = opt.yi.length)
    (hyne : opt.yi ≠ [])
    (hpool : ∃ cand ∈ (samplePool opt.cfg opt.cfg.nPool opt.rng).1,
        maxY opt.yi - minY opt.yi < opt.cfg.kappa * predictStd opt.Xi cand) :
    ∀ p ∈ opt.Xi, 0 < distL1 (ask1 opt).1 p := by
  rcases hpool with ⟨cand, hcm, hcand⟩
  have hnlt : ¬ opt.yi.length < opt.cfg.nRandomStarts := not_lt.mpr hmodel
  have hpne : (samplePool opt.cfg opt.cfg.nPool opt.rng).1 ≠ [] := by
    intro he
    rw [he] at hcm
    cases hcm
  obtain ⟨b, hbm⟩ : ∃ b, argminBy (lcbScore opt.cfg opt.Xi opt.yi)
      (samplePool opt.cfg opt.cfg.nPool opt.rng).1 = some b := by
    cases hb : argminBy (lcbScore opt.cfg opt.Xi opt.yi)
        (samplePool opt.cfg opt.cfg.nPool opt.rng).1 with
    | none => exact absurd ((argminBy_eq_none _ _).mp hb) hpne
    | some b => exact ⟨b, rfl⟩
  have hask : (ask1 opt).1 = b := by
    unfold ask1
    rw [if_neg hnlt]
    dsimp only
    rw [hbm]
  have hXine : opt.Xi ≠ [] := by
    intro hXi
    apply hyne
    cases hy : opt.yi with
    | nil => rfl
    | cons y ys => rw [hXi, hy] at hlen; cases hlen
  have hble := argminBy_le _ _ b hbm cand hcm
  have hmc := (predictMean_bounds opt.Xi opt.yi cand hlen hyne).2
  have hmb := (predictMean_bounds opt.Xi opt.yi b hlen hyne).1
  have hcand_lt : lcbScore opt.cfg opt.Xi opt.yi cand < minY opt.yi := by
    unfold lcbScore
    linarith
  have hb_lt : lcbScore opt.cfg opt.Xi opt.yi b < minY opt.yi := lt_of_le_of_lt hble hcand_lt
  have hkpos : 0 < opt.cfg.kappa * predictStd opt.Xi b := by
    unfold lcbScore at hb_lt
    linarith
  have hstd_pos : 0 < predictStd opt.Xi b := by
    rcases lt_or_eq_of_le (predictStd_nonneg opt.Xi b) with h | h
    · exact h
    · rw [← h] at hkpos
      simp at hkpos
  intro p hp
  rw [hask]
  calc (0 : ℚ) < predictStd opt.Xi b := hstd_pos
    _ ≤ distL1 b p := predictStd_le_dist opt.Xi b hXine p hp

theorem clLoop_pairwise (strat : Strategy) (k : ℕ) :
    ∀ opt : OptState, goodRun strat k opt = true →
      (clLoop strat k opt).1.Pairwise (fun a b => a ≠ b) ∧
      ∀ x ∈ (clLoop strat k opt).1, ∀ p ∈ opt.Xi, x ≠ p := by
  induction k with
  | zero =>
      intro opt _
      constructor
      · exact List.Pairwise.nil
      · intro x hx
        cases hx
  | succ k ih =>
      intro opt hg
      simp only [goodRun, Bool.and_eq_true, decide_eq_true_eq, List.any_eq_true] at hg
      obtain ⟨⟨⟨⟨hmodel, hyne⟩, hlen⟩, hpool⟩, hrest⟩ := hg
      have hyne' : opt.yi ≠ [] := by simpa using hyne
      have hstep := clStep_pos_dist opt hmodel hlen hyne' (by
        rcases hpool with ⟨cand, hcm, hcond⟩
        exact ⟨cand, hcm, hcond⟩)
      simp only [clLoop]
      have hXi2 : (tellLie (ask1 opt).2 (ask1 opt).1 (lieValue strat (ask1 opt).2.yi)).Xi
          = opt.Xi ++ [(ask1 opt).1] := by
        rw [(tellLie_fields _ _ _).2.1, (ask1_frame opt).2.1]
      rcases ih _ hrest with ⟨ihp, ihm⟩
      constructor
      · rw [List.pairwise_cons]
        refine ⟨?_, ihp⟩
        intro x hx
        have hne := ihm x hx (ask1 opt).1
          (by rw [hXi2]; exact List.mem_append_right _ (List.mem_singleton_self _))
        exact Ne.symm hne
      · intro x hx p hp
        cases hx with
        | head =>
            intro he
            have hd := hstep p hp
            rw [he, distL1_self] at hd
            exact lt_irrefl 0 hd
        | tail _ hx2 =>
            exact ihm x hx2 p (by rw [hXi2]; exact List.mem_append_left _ hp)

/-- C5: a batch `ask(k)` (in particular `k = 5`) under the active
constant-liar strategy, past the random-start budget, returns pairwise
distinct points: at every step the lie-augmented surrogate makes any
already-proposed point score no better than the history's worst value,
so the acquisition argmin escapes it whenever the candidate pool
reaches beyond the augmented history (the `goodRun` condition, playing
the spec's nontrivial-noise-floor role). -/
theorem askBatch_pairwise_distinct (s : OptState) (k : ℕ) (strat : Strategy)
    (hc : s.cache = none) (hg : goodRun strat k s = true) :
    (askBatch s k strat).1.Pairwise (fun a b => a ≠ b) := by
  rw [askBatch_miss s k strat hc]
  exact (clLoop_pairwise strat k s hg).1

/-- Witness for C5 at a concrete model-phase state and k equal to 5. -/
theorem askBatch_pairwise_distinct_witness :
    (askBatch sC5 5 .cl_max).1.Pairwise (fun a b => a ≠ b) :=
  askBatch_pairwise_distinct sC5 5 .cl_max rfl (by
    norm_num [goodRun, sC5, ask1, tellLie, lieValue, samplePool, samplePoint,
      sampleCoords, rngNext, coord, argminBy, predictStd, distL1, minY, maxY,
      Bool.and_eq_true, List.any_eq_true])

end Skopt
